import Mathlib

/-!
Shallow embedding of the daily GMT/USDC price tracker (`src/script.js`).

The program keeps a series of daily price points `{date, price}` (both
strings), decides once per page load whether a fetch is needed, fetches
missing history from the upstream API in windows of at most 1000 days,
merges the result with the stored series (concatenate, sort by date,
drop duplicate dates keeping the first occurrence), persists it, and
arms a timer for the next UTC midnight.

Modelling conventions:
* JS strings are `String`; JS string comparison (`<`, `>=` on date
  strings) compares UTF-16 code units lexicographically, embedded here
  as an executable lexicographic comparison on `Char.toNat` (dates are
  ASCII, where code units and code points agree).
* The sort `allData.sort((a, b) => new Date(a.date) - new Date(b.date))`
  orders by the parsed timestamp; on `YYYY-MM-DD` UTC date strings the
  timestamp order coincides with the lexicographic order used here, and
  JS `Array.prototype.sort` is stable (ES2019), modelled by the stable
  insertion sort.
* JS millisecond timestamps are `Nat` (all dates handled by the program
  are on or after the configured start date 2026-01-01, hence after the
  epoch); `Date` field arithmetic (`getUTCFullYear` and friends) is
  embedded by the standard Gregorian civil-from-days / days-from-civil
  conversions on day numbers.
* The HTTP transport and `JSON.parse` are external capabilities; they
  appear as parameters (a window's response is `Option (List Candle)`,
  `none` being a failed request, and the stored blob's parse is a
  function that may fail).
-/

/-- Lexicographic comparison of character lists by code point, the JS
semantics of `<` on strings (restricted to the ASCII date strings the
program compares). -/
def charListLt : List Char → List Char → Bool
  | _, [] => false
  | [], _ :: _ => true
  | a :: as, b :: bs =>
    if a.toNat < b.toNat then true
    else if b.toNat < a.toNat then false
    else charListLt as bs

/-- JS `s < t` on strings. -/
def strLt (s t : String) : Bool := charListLt s.data t.data

/-- JS `s <= t` on strings (equivalently `!(t < s)`); `s >= t` is
`strLe t s`. -/
def strLe (s t : String) : Bool := !(strLt t s)

/-- One stored price point: a UTC calendar date `YYYY-MM-DD` and a price
formatted with six fractional digits, both strings (`src/script.js`
stores objects `{date, price}`). -/
structure PricePoint where
  date : String
  price : String
deriving DecidableEq, Repr

/-- Configured earliest supported date, `const START_DATE = '2026-01-01'`. -/
def START_DATE : String := "2026-01-01"

/-- Comparator relation used by the merge sort: `(a, b) =>
new Date(a.date) - new Date(b.date)` keeps `a` before `b` when the
comparator is non-positive, i.e. when `a.date <= b.date`. -/
def dateLe (a b : PricePoint) : Prop := strLe a.date b.date = true

instance : DecidableRel dateLe := fun _ _ => inferInstanceAs (Decidable (_ = true))

/-- Strict version of the date order, used to state that merge output is
strictly ascending. -/
def dateLt (a b : PricePoint) : Prop := strLt a.date b.date = true

theorem charListLt_asymm : ∀ {x y : List Char},
    charListLt x y = true → charListLt y x = false := by
  intro x
  induction x with
  | nil =>
    intro y h
    cases y with
    | nil => simp [charListLt] at h
    | cons b bs => simp [charListLt]
  | cons a as ih =>
    intro y h
    cases y with
    | nil => simp [charListLt] at h
    | cons b bs =>
      simp only [charListLt] at h ⊢
      rcases Nat.lt_trichotomy a.toNat b.toNat with hc | hc | hc
      · rw [if_neg (by omega), if_pos hc]
      · rw [if_neg (by omega), if_neg (by omega)] at h
        rw [if_neg (by omega), if_neg (by omega), ih h]
      · rw [if_neg (by omega), if_pos hc] at h
        exact absurd h (by simp)

theorem charListLt_trans : ∀ {x y z : List Char},
    charListLt x y = true → charListLt y z = true → charListLt x z = true := by
  intro x
  induction x with
  | nil =>
    intro y z h1 h2
    cases z with
    | nil =>
      cases y with
      | nil => exact h1
      | cons b bs => simp [charListLt] at h2
    | cons c cs => simp [charListLt]
  | cons a as ih =>
    intro y z h1 h2
    cases y with
    | nil => simp [charListLt] at h1
    | cons b bs =>
      cases z with
      | nil => simp [charListLt] at h2
      | cons c cs =>
        simp only [charListLt] at h1 h2 ⊢
        rcases Nat.lt_trichotomy a.toNat b.toNat with hab | hab | hab <;>
          rcases Nat.lt_trichotomy b.toNat c.toNat with hbc | hbc | hbc
        all_goals first
          | (rw [if_pos (by omega)])
          | (rw [if_neg (by omega), if_pos (by omega)] at h1; exact absurd h1 (by simp))
          | (rw [if_neg (by omega), if_pos (by omega)] at h2; exact absurd h2 (by simp))
          | (rw [if_neg (by omega), if_neg (by omega)] at h1
             rw [if_neg (by omega), if_neg (by omega)] at h2
             rw [if_neg (by omega), if_neg (by omega)]
             exact ih h1 h2)

theorem charListLt_eq_of_not {x y : List Char} (h1 : charListLt x y = false)
    (h2 : charListLt y x = false) : x = y := by
  induction x generalizing y with
  | nil =>
    cases y with
    | nil => rfl
    | cons b bs => simp [charListLt] at h1
  | cons a as ih =>
    cases y with
    | nil => simp [charListLt] at h2
    | cons b bs =>
      simp only [charListLt] at h1 h2
      rcases Nat.lt_trichotomy a.toNat b.toNat with hc | hc | hc
      · rw [if_pos hc] at h1; exact absurd h1 (by simp)
      · rw [if_neg (by omega), if_neg (by omega)] at h1 h2
        have hab : a = b := Char.eq_of_val_eq (UInt32.ext hc)
        rw [hab, ih h1 h2]
      · rw [if_pos hc] at h2; exact absurd h2 (by simp)

theorem strEq_of_not_lt {s t : String} (h1 : strLt s t = false)
    (h2 : strLt t s = false) : s = t := by
  have hd : s.data = t.data := charListLt_eq_of_not h1 h2
  exact String.ext hd

theorem strLt_of_le_of_ne {s t : String} (h1 : strLe s t = true) (h2 : s ≠ t) :
    strLt s t = true := by
  rw [strLe, Bool.not_eq_eq_eq_not, Bool.not_true] at h1
  cases hc : strLt s t with
  | true => rfl
  | false => exact absurd (strEq_of_not_lt hc h1) h2

instance : IsTotal PricePoint dateLe := by
  constructor
  intro a b
  rw [dateLe, dateLe, strLe, strLe]
  cases hc : strLt b.date a.date with
  | true =>
    right
    rw [strLt] at hc ⊢
    rw [charListLt_asymm hc]
    rfl
  | false => left; rfl

instance : IsTrans PricePoint dateLe := by
  constructor
  intro a b c h1 h2
  rw [dateLe, strLe, Bool.not_eq_eq_eq_not, Bool.not_true] at h1 h2 ⊢
  cases hc : strLt c.date a.date with
  | false => rfl
  | true =>
    exfalso
    cases hab : strLt a.date b.date with
    | true =>
      have := charListLt_trans hc hab
      rw [strLt] at h2
      rw [this] at h2
      exact Bool.true_eq_false.mp h2
    | false =>
      have : a.date = b.date := strEq_of_not_lt hab h1
      rw [this] at hc
      rw [hc] at h2
      exact Bool.true_eq_false.mp h2

instance : IsAntisymm PricePoint dateLt := by
  constructor
  intro a b h1 h2
  exfalso
  rw [dateLt, strLt] at h1 h2
  have := charListLt_asymm h1
  rw [this] at h2
  exact Bool.false_eq_true.mp h2

/-- Stable sort of the series by date: models
`allData.sort((a, b) => new Date(a.date) - new Date(b.date))`
(JS sort is stable, and timestamp order on `YYYY-MM-DD` equals the
lexicographic order of `dateLe`). -/
def sortByDate (l : List PricePoint) : List PricePoint := l.insertionSort dateLe

/-- Worker for `removeDuplicates`: the JS `filter` callback threads the
mutable `seen` set through the list, keeping a point only when its date
has not been seen yet. -/
def removeDuplicatesAux : List String → List PricePoint → List PricePoint
  | _, [] => []
  | seen, p :: rest =>
    if p.date ∈ seen then removeDuplicatesAux seen rest
    else p :: removeDuplicatesAux (p.date :: seen) rest

/-- The source's `removeDuplicates(data)`: keep the first point seen for
each date. -/
def removeDuplicates (data : List PricePoint) : List PricePoint :=
  removeDuplicatesAux [] data

/-- Merge step of `fetchAndStoreData`: concatenate existing before
incoming, sort ascending by date, drop duplicate dates. -/
def merge (existing incoming : List PricePoint) : List PricePoint :=
  removeDuplicates (sortByDate (existing ++ incoming))

theorem mem_removeDuplicatesAux {p : PricePoint} :
    ∀ {seen : List String} {l : List PricePoint},
      p ∈ removeDuplicatesAux seen l → p ∈ l ∧ p.date ∉ seen := by
  intro seen l
  induction l generalizing seen with
  | nil => intro h; simp [removeDuplicatesAux] at h
  | cons q rest ih =>
    intro h
    rw [removeDuplicatesAux] at h
    by_cases hq : q.date ∈ seen
    · rw [if_pos hq] at h
      have := ih h
      exact ⟨List.mem_cons_of_mem _ this.1, this.2⟩
    · rw [if_neg hq] at h
      rcases List.mem_cons.mp h with h' | h'
      · rw [h']
        exact ⟨List.mem_cons_self _ _, hq⟩
      · have := ih h'
        refine ⟨List.mem_cons_of_mem _ this.1, ?_⟩
        intro hc
        exact this.2 (List.mem_cons_of_mem _ hc)

theorem removeDuplicatesAux_sublist :
    ∀ (seen : List String) (l : List PricePoint),
      (removeDuplicatesAux seen l).Sublist l := by
  intro seen l
  induction l generalizing seen with
  | nil => simp [removeDuplicatesAux]
  | cons q rest ih =>
    rw [removeDuplicatesAux]
    by_cases hq : q.date ∈ seen
    · rw [if_pos hq]
      exact (ih seen).cons q
    · rw [if_neg hq]
      exact (ih (q.date :: seen)).cons₂ q

theorem find?_of_mem_removeDuplicatesAux {p : PricePoint} :
    ∀ {seen : List String} {l : List PricePoint},
      p ∈ removeDuplicatesAux seen l →
      l.find? (fun q => q.date == p.date) = some p := by
  intro seen l
  induction l generalizing seen with
  | nil => intro h; simp [removeDuplicatesAux] at h
  | cons q rest ih =>
    intro h
    rw [removeDuplicatesAux] at h
    by_cases hq : q.date ∈ seen
    · rw [if_pos hq] at h
      have hne : (q.date == p.date) = false := by
        have hp := (mem_removeDuplicatesAux h).2
        rw [beq_eq_false_iff_ne]
        intro hc
        rw [← hc] at hp
        exact hp hq
      rw [List.find?_cons_of_neg _ (by simp [hne]), ih h]
    · rw [if_neg hq] at h
      rcases List.mem_cons.mp h with h' | h'
      · rw [h']
        exact List.find?_cons_of_pos _ (by simp)
      · have hp := (mem_removeDuplicatesAux h').2
        have hne : (q.date == p.date) = false := by
          rw [beq_eq_false_iff_ne]
          intro hc
          exact hp (by rw [← hc]; exact List.mem_cons_self _ _)
        rw [List.find?_cons_of_neg _ (by simp [hne]), ih h']

theorem exists_mem_removeDuplicatesAux_of_mem {q : PricePoint} :
    ∀ {seen : List String} {l : List PricePoint},
      q ∈ l → q.date ∉ seen →
      ∃ p ∈ removeDuplicatesAux seen l, p.date = q.date := by
  intro seen l
  induction l generalizing seen with
  | nil => intro h; simp at h
  | cons r rest ih =>
    intro h hs
    rw [removeDuplicatesAux]
    by_cases hr : r.date ∈ seen
    · rw [if_pos hr]
      rcases List.mem_cons.mp h with h' | h'
      · exfalso
        rw [h'] at hs
        exact hs hr
      · exact ih h' hs
    · rw [if_neg hr]
      rcases List.mem_cons.mp h with h' | h'
      · exact ⟨r, List.mem_cons_self _ _, by rw [h']⟩
      · by_cases hqr : q.date = r.date
        · exact ⟨r, List.mem_cons_self _ _, hqr.symm⟩
        · have hs' : q.date ∉ r.date :: seen := by
            intro hc
            rcases List.mem_cons.mp hc with hc' | hc'
            · exact hqr hc'
            · exact hs hc'
          rcases ih h' hs' with ⟨p, hp1, hp2⟩
          exact ⟨p, List.mem_cons_of_mem _ hp1, hp2⟩

theorem pairwise_ne_removeDuplicatesAux :
    ∀ (seen : List String) (l : List PricePoint),
      (removeDuplicatesAux seen l).Pairwise (fun a b => a.date ≠ b.date) := by
  intro seen l
  induction l generalizing seen with
  | nil => simp [removeDuplicatesAux]
  | cons q rest ih =>
    rw [removeDuplicatesAux]
    by_cases hq : q.date ∈ seen
    · rw [if_pos hq]
      exact ih seen
    · rw [if_neg hq]
      refine List.Pairwise.cons ?_ (ih (q.date :: seen))
      intro b hb
      have := (mem_removeDuplicatesAux hb).2
      intro hc
      exact this (by rw [← hc]; exact List.mem_cons_self _ _)

theorem charListLt_irrefl : ∀ x : List Char, charListLt x x = false := by
  intro x
  induction x with
  | nil => rfl
  | cons a as ih =>
    rw [charListLt, if_neg (by omega), if_neg (by omega)]
    exact ih

theorem find?_orderedInsert_eq_date {a : PricePoint} {d : String} (h : a.date = d) :
    ∀ l : List PricePoint,
      (l.orderedInsert dateLe a).find? (fun q => q.date == d) = some a := by
  intro l
  induction l with
  | nil =>
    rw [List.orderedInsert]
    exact List.find?_cons_of_pos _ (by simp [h])
  | cons b bs ih =>
    rw [List.orderedInsert]
    by_cases hle : dateLe a b
    · rw [if_pos hle]
      exact List.find?_cons_of_pos _ (by simp [h])
    · rw [if_neg hle]
      have hne : b.date ≠ d := by
        intro hc
        apply hle
        rw [dateLe, hc, ← h, strLe, strLt, charListLt_irrefl]
        rfl
      rw [List.find?_cons_of_neg _ (by simp [hne]), ih]

theorem find?_orderedInsert_ne_date {a : PricePoint} {d : String} (h : a.date ≠ d) :
    ∀ l : List PricePoint,
      (l.orderedInsert dateLe a).find? (fun q => q.date == d) =
        l.find? (fun q => q.date == d) := by
  intro l
  induction l with
  | nil =>
    rw [List.orderedInsert]
    rw [List.find?_cons_of_neg _ (by simp [h]), List.find?_nil]
  | cons b bs ih =>
    rw [List.orderedInsert]
    by_cases hle : dateLe a b
    · rw [if_pos hle]
      rw [List.find?_cons_of_neg _ (by simp [h])]
    · rw [if_neg hle]
      by_cases hb : b.date = d
      · rw [List.find?_cons_of_pos _ (by simp [hb]),
          List.find?_cons_of_pos _ (by simp [hb])]
      · rw [List.find?_cons_of_neg _ (by simp [hb]),
          List.find?_cons_of_neg _ (by simp [hb]), ih]

theorem find?_sortByDate (l : List PricePoint) (d : String) :
    (sortByDate l).find? (fun q => q.date == d) =
      l.find? (fun q => q.date == d) := by
  induction l with
  | nil => rfl
  | cons a as ih =>
    show ((as.insertionSort dateLe).orderedInsert dateLe a).find? _ = _
    by_cases ha : a.date = d
    · rw [find?_orderedInsert_eq_date ha,
        List.find?_cons_of_pos _ (by simp [ha])]
    · rw [find?_orderedInsert_ne_date ha, List.find?_cons_of_neg _ (by simp [ha])]
      exact ih

theorem sorted_sortByDate (l : List PricePoint) :
    (sortByDate l).Pairwise dateLe :=
  List.sorted_insertionSort dateLe l

theorem perm_sortByDate (l : List PricePoint) : (sortByDate l).Perm l :=
  List.perm_insertionSort dateLe l

theorem mem_removeDuplicates_iff {p : PricePoint} {l : List PricePoint} :
    p ∈ removeDuplicates l ↔ l.find? (fun q => q.date == p.date) = some p := by
  constructor
  · exact find?_of_mem_removeDuplicatesAux
  · intro h
    have hmem : p ∈ l := List.mem_of_find?_eq_some h
    rcases exists_mem_removeDuplicatesAux_of_mem hmem (List.not_mem_nil _) with
      ⟨q, hq1, hq2⟩
    have := find?_of_mem_removeDuplicatesAux hq1
    rw [hq2] at this
    rw [this] at h
    rw [Option.some_inj] at h
    rwa [h] at hq1

theorem pairwise_lt_removeDuplicatesAux {l : List PricePoint}
    (hs : l.Pairwise dateLe) (seen : List String) :
    (removeDuplicatesAux seen l).Pairwise dateLt := by
  have h1 : (removeDuplicatesAux seen l).Pairwise dateLe :=
    hs.sublist (removeDuplicatesAux_sublist seen l)
  have h2 := pairwise_ne_removeDuplicatesAux seen l
  have h3 := List.Pairwise.and h1 h2
  refine h3.imp ?_
  intro a b hab
  rw [dateLt]
  exact strLt_of_le_of_ne hab.1 hab.2

theorem perm_removeDuplicates_sortByDate (l : List PricePoint) :
    (removeDuplicates (sortByDate l)).Perm (removeDuplicates l) := by
  rw [List.perm_ext_iff_of_nodup]
  · intro p
    rw [mem_removeDuplicates_iff, mem_removeDuplicates_iff, find?_sortByDate]
  · have := pairwise_ne_removeDuplicatesAux [] (sortByDate l)
    exact this.imp fun h => by intro hc; rw [hc] at h; exact h rfl
  · have := pairwise_ne_removeDuplicatesAux [] l
    exact this.imp fun h => by intro hc; rw [hc] at h; exact h rfl

theorem strLe_refl (s : String) : strLe s s = true := by
  rw [strLe, strLt, charListLt_irrefl]
  rfl

theorem strLe_lt_trans {a b c : String} (h1 : strLe a b = true)
    (h2 : strLt b c = true) : strLt a c = true := by
  rw [strLe, Bool.not_eq_eq_eq_not, Bool.not_true] at h1
  cases hab : strLt a b with
  | true => exact charListLt_trans hab h2
  | false =>
    have : a = b := strEq_of_not_lt hab h1
    rwa [this]

theorem strLt_empty {t : String} (h : t ≠ "") : strLt "" t = true := by
  rw [strLt]
  cases ht : t.data with
  | nil => exact absurd (String.ext (by simpa using ht)) h
  | cons c cs => rfl

theorem dateLe_refl (p : PricePoint) : dateLe p p := strLe_refl p.date

theorem pairwise_le_getLast {l : List PricePoint} (hs : l.Pairwise dateLe)
    (hl : l ≠ []) : ∀ q ∈ l, dateLe q (l.getLast hl) := by
  induction l with
  | nil => exact absurd rfl hl
  | cons a as ih =>
    intro q hq
    cases as with
    | nil =>
      rcases List.mem_cons.mp hq with h' | h'
      · rw [List.getLast_singleton, h']
        exact dateLe_refl a
      · simp at h'
    | cons b bs =>
      rw [List.getLast_cons (by simp)]
      rcases List.mem_cons.mp hq with h' | h'
      · rw [h']
        exact (List.pairwise_cons.mp hs).1 _ (List.getLast_mem _)
      · exact ih (List.pairwise_cons.mp hs).2 (by simp) q h'

/-- Claim C2 statement: `merge` concatenates existing before incoming,
stable-sorts ascending by date, and deduplicates keeping the first
point encountered for each date; the output is strictly ascending by
date (hence at most one point per distinct date), and each output point
is the first point bearing its date both in the sorted sequence and in
the pre-sort concatenation. -/
theorem merge_sorts_and_dedups (e i : List PricePoint) :
    merge e i = removeDuplicates (sortByDate (e ++ i)) ∧
    (merge e i).Pairwise dateLt ∧
    ∀ p ∈ merge e i,
      (sortByDate (e ++ i)).find? (fun q => q.date == p.date) = some p ∧
      (e ++ i).find? (fun q => q.date == p.date) = some p := by
  refine ⟨rfl, pairwise_lt_removeDuplicatesAux (sorted_sortByDate _) [], ?_⟩
  intro p hp
  have h1 := find?_of_mem_removeDuplicatesAux hp
  refine ⟨h1, ?_⟩
  rw [← find?_sortByDate]
  exact h1

/-- Witness for C2 at a concrete input: merging
`[{2026-01-02, 0.2}, {2026-01-01, 0.1}]` with `[{2026-01-01, 0.9}]`
keeps the first-encountered point for date 2026-01-01. -/
theorem merge_sorts_and_dedups_witness :
    (sortByDate ([⟨"2026-01-02", "0.2"⟩, ⟨"2026-01-01", "0.1"⟩] ++
        [⟨"2026-01-01", "0.9"⟩])).find?
      (fun q => q.date == (⟨"2026-01-01", "0.1"⟩ : PricePoint).date) =
      some ⟨"2026-01-01", "0.1"⟩ :=
  ((merge_sorts_and_dedups [⟨"2026-01-02", "0.2"⟩, ⟨"2026-01-01", "0.1"⟩]
      [⟨"2026-01-01", "0.9"⟩]).2.2 ⟨"2026-01-01", "0.1"⟩ (by decide)).1

/-- Claim C9 statement: merging a series with an empty incoming sequence
equals sorting the deduplicated series (dedup keeps the first occurrence
of each date). -/
theorem merge_nil_eq_sort_dedup (S : List PricePoint) :
    merge S [] = sortByDate (removeDuplicates S) := by
  have h1 : merge S [] = removeDuplicates (sortByDate S) := by
    rw [merge, List.append_nil]
  rw [h1]
  apply List.eq_of_perm_of_sorted (r := dateLt)
  · exact (perm_removeDuplicates_sortByDate S).trans
      (perm_sortByDate (removeDuplicates S)).symm
  · exact pairwise_lt_removeDuplicatesAux (sorted_sortByDate S) []
  · have hle := sorted_sortByDate (removeDuplicates S)
    have hne : (sortByDate (removeDuplicates S)).Pairwise
        (fun a b => a.date ≠ b.date) :=
      (List.Perm.pairwise_iff (fun h hc => h hc.symm)
        (perm_sortByDate (removeDuplicates S))).mpr
        (pairwise_ne_removeDuplicatesAux [] S)
    exact (hle.and hne).imp fun hab => strLt_of_le_of_ne hab.1 hab.2

/-- Claim C10 statement: when the stored series has at most one point
per date (the stored-series invariant), a sync cycle's merge keeps every
existing point unchanged — the point itself, with its date and price,
appears in the merged result, whatever the fetcher returned. -/
theorem merge_preserves_existing (existing incoming : List PricePoint)
    (hnodup : existing.Pairwise (fun a b => a.date ≠ b.date)) :
    ∀ p ∈ existing, p ∈ merge existing incoming := by
  intro p hp
  rw [merge, mem_removeDuplicates_iff, find?_sortByDate]
  have hfind : existing.find? (fun q => q.date == p.date) = some p := by
    induction existing with
    | nil => simp at hp
    | cons a as ih =>
      rcases List.mem_cons.mp hp with h' | h'
      · rw [h']
        exact List.find?_cons_of_pos _ (by simp)
      · have hne : a.date ≠ p.date :=
          (List.pairwise_cons.mp hnodup).1 p h'
        rw [List.find?_cons_of_neg _ (by simp [hne])]
        exact ih (List.pairwise_cons.mp hnodup).2 h'
  induction existing with
  | nil => simp at hp
  | cons a as ih =>
    rw [List.cons_append]
    by_cases ha : a.date = p.date
    · rw [List.find?_cons_of_pos _ (by simp [ha])]
      rw [List.find?_cons_of_pos _ (by simp [ha])] at hfind
      exact hfind
    · rw [List.find?_cons_of_neg _ (by simp [ha])]
      rw [List.find?_cons_of_neg _ (by simp [ha])] at hfind
      rcases List.mem_cons.mp hp with h' | h'
      · exact absurd (congrArg PricePoint.date h'.symm) ha
      · exact ih (List.pairwise_cons.mp hnodup).2 h' hfind

/-- Witness for C10 at a concrete input: the stored point for 2026-01-01
survives a merge with an incoming point for the same date. -/
theorem merge_preserves_existing_witness :
    (⟨"2026-01-01", "0.1"⟩ : PricePoint) ∈
      merge [⟨"2026-01-01", "0.1"⟩] [⟨"2026-01-01", "0.9"⟩, ⟨"2026-01-02", "0.2"⟩] :=
  merge_preserves_existing [⟨"2026-01-01", "0.1"⟩]
    [⟨"2026-01-01", "0.9"⟩, ⟨"2026-01-02", "0.2"⟩] (by simp)
    ⟨"2026-01-01", "0.1"⟩ (by simp)

/-- Last stored date of the series (`initializeApp`):
`existingData.length > 0 ? existingData[existingData.length - 1].date : null`. -/
def lastStoredDate (existing : List PricePoint) : Option String :=
  match existing.getLast? with
  | some p => some p.date
  | none => none

/-- Freshness decision of `initializeApp`:
`!lastStoredDate || lastStoredDate < today` (a JS string is falsy also
when empty, hence the emptiness disjunct). -/
def needsFetch (existing : List PricePoint) (today : String) : Bool :=
  match lastStoredDate existing with
  | none => true
  | some d => (d == "") || strLt d today

/-- Sync orchestration on the freshness decision (`initializeApp`): when
a fetch is needed the incoming points are merged into the series, which
is then displayed and persisted; otherwise the stored series is
displayed unchanged. The first component records whether a fetch was
performed. -/
def ensureFresh (existing : List PricePoint) (today : String)
    (incoming : List PricePoint) : Bool × List PricePoint :=
  if needsFetch existing today then (true, merge existing incoming)
  else (false, existing)

theorem ensureFresh_fst (existing : List PricePoint) (today : String)
    (incoming : List PricePoint) :
    (ensureFresh existing today incoming).1 = needsFetch existing today := by
  rw [ensureFresh]
  by_cases h : needsFetch existing today = true
  · rw [if_pos h, h]
  · rw [if_neg h]
    simp only [Bool.not_eq_true] at h
    rw [h]

/-- Claim C1 statement: for a stored series sorted ascending by date and
a non-empty current date string, the orchestrator fetches if and only if
the series is empty or its latest stored date is strictly earlier than
today's UTC date; when it does not fetch it returns the stored series
unchanged. -/
theorem ensureFresh_fetch_iff (existing : List PricePoint) (today : String)
    (incoming : List PricePoint) (hs : existing.Pairwise dateLe)
    (ht : today ≠ "") :
    ((ensureFresh existing today incoming).1 = true ↔
      existing = [] ∨
        ∃ p ∈ existing, (∀ q ∈ existing, strLe q.date p.date = true) ∧
          strLt p.date today = true) ∧
    ((ensureFresh existing today incoming).1 = false →
      (ensureFresh existing today incoming).2 = existing) := by
  constructor
  · rw [ensureFresh_fst]
    cases hex : existing with
    | nil =>
      simp [needsFetch, lastStoredDate]
    | cons a as =>
      rw [← hex]
      have hne : existing ≠ [] := by rw [hex]; simp
      have hlast : existing.getLast? = some (existing.getLast hne) :=
        List.getLast?_eq_getLast existing hne
      set l := existing.getLast hne with hl
      rw [needsFetch, lastStoredDate, hlast]
      constructor
      · intro h
        right
        refine ⟨l, List.getLast_mem hne, pairwise_le_getLast hs hne, ?_⟩
        rw [Bool.or_eq_true] at h
        rcases h with h | h
        · rw [beq_iff_eq] at h
          rw [h]
          exact strLt_empty ht
        · exact h
      · intro h
        rcases h with h | h
        · exact absurd h hne
        · rcases h with ⟨p, hp, hmax, hlt⟩
          have hle : strLe l.date p.date = true := hmax l (List.getLast_mem hne)
          have hlt2 : strLt l.date today = true := strLe_lt_trans hle hlt
          show (l.date == "" || strLt l.date today) = true
          rw [hlt2, Bool.or_true]
  · intro h
    rw [ensureFresh] at h ⊢
    by_cases hf : needsFetch existing today = true
    · rw [if_pos hf] at h
      simp at h
    · rw [if_neg hf]

/-- Witness for C1 at concrete inputs: with latest stored date
2026-03-10, a current date of 2026-03-11 triggers a fetch and a current
date of 2026-03-10 does not, leaving the series unchanged. -/
theorem ensureFresh_fetch_iff_witness :
    (ensureFresh [⟨"2026-03-10", "0.100000"⟩] "2026-03-11" []).1 = true ∧
    (ensureFresh [⟨"2026-03-10", "0.100000"⟩] "2026-03-10" []).2 =
      [⟨"2026-03-10", "0.100000"⟩] := by
  constructor
  · exact ((ensureFresh_fetch_iff [⟨"2026-03-10", "0.100000"⟩] "2026-03-11" []
      (by simp) (by decide)).1).mpr
      (Or.inr ⟨⟨"2026-03-10", "0.100000"⟩, by simp, by decide, by decide⟩)
  · exact (ensureFresh_fetch_iff [⟨"2026-03-10", "0.100000"⟩] "2026-03-10" []
      (by simp) (by decide)).2 (by decide)

/-- Window partition loop of `fetchHistoricalData`, at calendar-day
granularity: day numbers stand for dates, `cur` is `currentStart`, `e`
is `end`. Each iteration requests the window
`[currentStart, min(currentStart + 999 days, end)]` and then advances
`currentStart` by 1000 days (`batchSize`), while `currentStart <= end`. -/
def windowsFrom (cur e : Nat) : List (Nat × Nat) :=
  if cur ≤ e then (cur, min (cur + 999) e) :: windowsFrom (cur + 1000) e
  else []
termination_by e + 1 - cur
decreasing_by omega

theorem windowsFrom_of_le {cur e : Nat} (h : cur ≤ e) :
    windowsFrom cur e = (cur, min (cur + 999) e) :: windowsFrom (cur + 1000) e := by
  rw [windowsFrom, if_pos h]

theorem windowsFrom_of_gt {cur e : Nat} (h : ¬ cur ≤ e) :
    windowsFrom cur e = [] := by
  rw [windowsFrom, if_neg h]

theorem windowsFrom_closed_form :
    ∀ (n s e : Nat), e - s = n → s ≤ e →
      windowsFrom s e = (List.range ((e - s) / 1000 + 1)).map
        (fun k => (s + 1000 * k, min (s + 1000 * k + 999) e)) := by
  intro n
  induction n using Nat.strong_induction_on with
  | _ n ih =>
    intro s e hn hse
    rw [windowsFrom_of_le hse]
    by_cases hnext : s + 1000 ≤ e
    · have hdiv : (e - s) / 1000 = (e - s - 1000) / 1000 + 1 :=
        Nat.div_eq_sub_div (by omega) (by omega)
      have hrec := ih (e - (s + 1000)) (by omega) (s + 1000) e rfl hnext
      have harith : e - (s + 1000) = e - s - 1000 := by omega
      rw [harith] at hrec
      have hsplit : (List.range ((e - s) / 1000 + 1)).map
          (fun k => (s + 1000 * k, min (s + 1000 * k + 999) e)) =
          (s + 1000 * 0, min (s + 1000 * 0 + 999) e) ::
            (List.range ((e - s - 1000) / 1000 + 1)).map
              ((fun k => (s + 1000 * k, min (s + 1000 * k + 999) e)) ∘ Nat.succ) := by
        rw [hdiv, List.range_succ_eq_map, List.map_cons, List.map_map]
      rw [hsplit, hrec]
      refine congrArg₂ List.cons ?_ ?_
      · exact congrArg₂ Prod.mk (by omega) (congrArg₂ min (by omega) rfl)
      · apply List.map_congr_left
        intro k _
        simp only [Function.comp_apply]
        exact congrArg₂ Prod.mk (by omega) (congrArg₂ min (by omega) rfl)
    · have hdiv0 : (e - s) / 1000 = 0 := Nat.div_eq_of_lt (by omega)
      rw [windowsFrom_of_gt hnext, hdiv0]
      simp [List.range_succ]

/-- Claim C4 statement: the batch fetcher partitions `[startDate,
endDate]` into consecutive windows, the k-th window starting exactly
1000 days after the previous one and ending at
`min(windowStart + 999, endDate)`; every window lies inside the range
and spans at most 1000 calendar days, and the loop runs
`(e - s) / 1000 + 1` times, which is 3 for a range spanning 2500 days
(`e - s = 2499`). -/
theorem windowsFrom_spec (s e : Nat) (h : s ≤ e) :
    windowsFrom s e = (List.range ((e - s) / 1000 + 1)).map
      (fun k => (s + 1000 * k, min (s + 1000 * k + 999) e)) ∧
    (∀ w ∈ windowsFrom s e,
      s ≤ w.1 ∧ w.1 ≤ w.2 ∧ w.2 ≤ e ∧ w.2 + 1 - w.1 ≤ 1000) ∧
    (windowsFrom s e).length = (e - s) / 1000 + 1 ∧
    (e - s = 2499 → (windowsFrom s e).length = 3) := by
  have hcf := windowsFrom_closed_form (e - s) s e rfl h
  have hlen : (windowsFrom s e).length = (e - s) / 1000 + 1 := by
    rw [hcf, List.length_map, List.length_range]
  refine ⟨hcf, ?_, hlen, ?_⟩
  · intro w hw
    rw [hcf] at hw
    rcases List.mem_map.mp hw with ⟨k, hk, rfl⟩
    rw [List.mem_range] at hk
    have h1 : k * 1000 ≤ e - s := (Nat.le_div_iff_mul_le (by omega)).mp (by omega)
    simp only
    omega
  · intro h2500
    rw [hlen, h2500]

/-- Witness for C4 at a concrete input: a 2500-day range (day 0 through
day 2499) is split into exactly the three windows
`1000 + 1000 + 500` days. -/
theorem windowsFrom_spec_witness :
    windowsFrom 0 2499 = [(0, 999), (1000, 1999), (2000, 2499)] := by
  rw [(windowsFrom_spec 0 2499 (by decide)).1]
  decide

/-- Start-of-year day-of-era for a year-of-era `yoe < 400` (365 days per
year plus the Julian and century leap corrections). -/
def yearStart (yoe : Nat) : Nat := 365 * yoe + yoe / 4 - yoe / 100

/-- Start-of-year day-of-era including the 400-year leap correction,
used at the era boundary. -/
def yearStartFull (yoe : Nat) : Nat := 365 * yoe + yoe / 4 - yoe / 100 + yoe / 400

/-- Leap-corrected day count used by the civil calendar conversion to
locate the year-of-era containing a day-of-era. -/
def gfun (d : Nat) : Nat := d - d / 1460 + d / 36524 - d / 146096

/-- Year-of-era of a day-of-era. -/
def yoeOf (doe : Nat) : Nat := gfun doe / 365

theorem gfun_mono_step (d : Nat) : gfun d ≤ gfun (d + 1) := by
  unfold gfun
  omega

/-- Executable check that `yoeOf` answers `yoe` at both the first and
the last day-of-era of the year `yoe`. -/
def yoeEndpointsOk (yoe : Nat) : Bool :=
  (yoeOf (yearStart yoe) == yoe) && (yoeOf (yearStartFull (yoe + 1) - 1) == yoe)

/-- Fuelled binary split, evaluating `yoeEndpointsOk` on every year in
`[lo, hi)` without deep kernel recursion. -/
def checkYears : Nat → Nat → Nat → Bool
  | 0, _, _ => false
  | fuel + 1, lo, hi =>
    if hi ≤ lo then true
    else if hi = lo + 1 then yoeEndpointsOk lo
    else checkYears fuel lo ((lo + hi) / 2) && checkYears fuel ((lo + hi) / 2) hi

theorem checkYears_sound : ∀ fuel lo hi, checkYears fuel lo hi = true →
    ∀ y, lo ≤ y → y < hi → yoeEndpointsOk y = true := by
  intro fuel
  induction fuel with
  | zero => intro lo hi h; simp [checkYears] at h
  | succ n ih =>
    intro lo hi h y h1 h2
    rw [checkYears] at h
    by_cases hle : hi ≤ lo
    · omega
    · rw [if_neg hle] at h
      by_cases heq : hi = lo + 1
      · rw [if_pos heq] at h
        have hd : y = lo := by omega
        rwa [hd]
      · rw [if_neg heq, Bool.and_eq_true] at h
        rcases Nat.lt_or_ge y ((lo + hi) / 2) with hc | hc
        · exact ih lo ((lo + hi) / 2) h.1 y h1 hc
        · exact ih ((lo + hi) / 2) hi h.2 y hc h2

theorem endpoints_ok : ∀ y < 400, yoeEndpointsOk y = true := by
  intro y h
  exact checkYears_sound 12 0 400 (by decide) y (Nat.zero_le _) h

theorem yoeOf_mono {a b : Nat} (h : a ≤ b) : yoeOf a ≤ yoeOf b := by
  have hg : Monotone gfun := monotone_nat_of_le_succ gfun_mono_step
  exact Nat.div_le_div_right (hg h)

theorem yearStartFull_eq (y : Nat) (h : y ≤ 399) : yearStartFull y = yearStart y := by
  unfold yearStartFull yearStart
  have h0 : y / 400 = 0 := Nat.div_eq_of_lt (by omega)
  omega

theorem yoe_correct (doe : Nat) (h : doe < 146097) :
    yearStart (yoeOf doe) ≤ doe ∧ doe - yearStart (yoeOf doe) ≤ 365 ∧
      yoeOf doe ≤ 399 := by
  set P : Nat → Prop := fun y => yearStartFull y ≤ doe with hP
  have hdecP : DecidablePred P := fun y => inferInstanceAs (Decidable (_ ≤ _))
  set y := Nat.findGreatest P 400 with hy
  have hy400 : y ≤ 400 := Nat.findGreatest_le 400
  have hPy : P y := Nat.findGreatest_spec (Nat.zero_le 400) (by simp [hP, yearStartFull])
  have hy399 : y ≤ 399 := by
    rcases Nat.lt_or_ge y 400 with h' | h'
    · omega
    · exfalso
      have habs : yearStartFull 400 ≤ doe := by
        have h4 : y = 400 := by omega
        rw [← h4]
        exact hPy
      have h400 : yearStartFull 400 = 146097 := by decide
      omega
  have hnPy1 : ¬ P (y + 1) :=
    Nat.findGreatest_is_greatest (n := 400) (k := y + 1) (by omega) (by omega)
  have hend := endpoints_ok y (by omega)
  rw [yoeEndpointsOk, Bool.and_eq_true, beq_iff_eq, beq_iff_eq] at hend
  have hys : yearStartFull y = yearStart y := yearStartFull_eq y hy399
  have h1 : yoeOf (yearStart y) = y := by rw [← hys] at hend ⊢; exact hend.1
  have h2 : yoeOf (yearStartFull (y + 1) - 1) = y := hend.2
  have hlow : yearStart y ≤ doe := by rw [← hys]; exact hPy
  have hhigh : doe ≤ yearStartFull (y + 1) - 1 := by
    simp only [hP, not_le] at hnPy1
    omega
  have hmono1 : y ≤ yoeOf doe := h1 ▸ yoeOf_mono hlow
  have hmono2 : yoeOf doe ≤ y := h2 ▸ yoeOf_mono hhigh
  have hyoe : yoeOf doe = y := le_antisymm hmono2 hmono1
  rw [hyoe]
  refine ⟨hlow, ?_, hy399⟩
  have hspan : yearStartFull (y + 1) - yearStartFull y ≤ 366 := by
    unfold yearStartFull
    omega
  omega

/-- Gregorian conversion from a day number (days since 1970-01-01, the
program only handles days at or after the epoch) to the UTC calendar
date `(year, month, day)`, the arithmetic performed by the JS `Date`
accessors `getUTCFullYear`, `getUTCMonth` and `getUTCDate`. -/
def civilFromDays (n : Nat) : Nat × Nat × Nat :=
  let z := n + 719468
  let era := z / 146097
  let doe := z % 146097
  let yoe := (doe - doe / 1460 + doe / 36524 - doe / 146096) / 365
  let y := yoe + era * 400
  let doy := doe - (365 * yoe + yoe / 4 - yoe / 100)
  let mp := (5 * doy + 2) / 153
  let d := doy - (153 * mp + 2) / 5 + 1
  let m := if mp < 10 then mp + 3 else mp - 9
  (if m ≤ 2 then y + 1 else y, m, d)

/-- Gregorian conversion from a UTC calendar date back to the day
number, the arithmetic performed by `Date.UTC` / the JS `Date` field
setters; an out-of-range day-of-month rolls over into later months
exactly as JS `setUTCDate` does. -/
def civilToDays (y m d : Nat) : Nat :=
  let y' := if m ≤ 2 then y - 1 else y
  let era := y' / 400
  let yoe := y' % 400
  let mp := if 2 < m then m - 3 else m + 9
  let doy := (153 * mp + 2) / 5 + d - 1
  let doe := yoe * 365 + yoe / 4 - yoe / 100 + doy
  era * 146097 + doe - 719468

theorem civil_roundtrip_add (n k : Nat) :
    civilToDays (civilFromDays n).1 (civilFromDays n).2.1
      ((civilFromDays n).2.2 + k) = n + k := by
  have hdoe : (n + 719468) % 146097 < 146097 := Nat.mod_lt _ (by omega)
  set doe := (n + 719468) % 146097 with hdoedef
  have hcor := yoe_correct doe hdoe
  set yoe := yoeOf doe with hyoedef
  have hyoeOf : (doe - doe / 1460 + doe / 36524 - doe / 146096) / 365 = yoe := rfl
  set era := (n + 719468) / 146097 with heradef
  set doy := doe - (365 * yoe + yoe / 4 - yoe / 100) with hdoydef
  have hdoy365 : doy ≤ 365 := by
    rw [hdoydef]
    have h21 := hcor.2.1
    unfold yearStart at h21
    omega
  set mp := (5 * doy + 2) / 153 with hmpdef
  have hmp11 : mp ≤ 11 := by rw [hmpdef]; omega
  have hmpd : (153 * mp + 2) / 5 ≤ doy := by rw [hmpdef]; omega
  set d := doy - (153 * mp + 2) / 5 + 1 with hddef
  have hera : era * 146097 + doe = n + 719468 := by
    rw [heradef, hdoedef]
    omega
  have hys : 365 * yoe + yoe / 4 - yoe / 100 ≤ doe := by
    have h1 := hcor.1
    unfold yearStart at h1
    exact h1
  have hyoe399 : yoe ≤ 399 := hcor.2.2
  rw [civilFromDays]
  simp only [← hdoedef, ← heradef, hyoeOf, ← hdoydef, ← hmpdef, ← hddef]
  rcases Nat.lt_or_ge mp 10 with hmp | hmp
  · rw [if_pos hmp]
    have hm2 : ¬ (mp + 3 ≤ 2) := by omega
    rw [if_neg hm2]
    rw [civilToDays]
    simp only [if_neg hm2, if_pos (show 2 < mp + 3 by omega)]
    have hmm : mp + 3 - 3 = mp := by omega
    rw [hmm]
    have hyoemod : (yoe + era * 400) % 400 = yoe := by omega
    have hyoediv : (yoe + era * 400) / 400 = era := by omega
    rw [hyoemod, hyoediv]
    omega
  · rw [if_neg (by omega : ¬ mp < 10)]
    have hm2 : mp - 9 ≤ 2 := by omega
    rw [if_pos hm2]
    rw [civilToDays]
    simp only [if_pos hm2, if_neg (show ¬ 2 < mp - 9 by omega)]
    have hmm : mp - 9 + 9 = mp := by omega
    rw [hmm]
    have hsub : yoe + era * 400 + 1 - 1 = yoe + era * 400 := by omega
    rw [hsub]
    have hyoemod : (yoe + era * 400) % 400 = yoe := by omega
    have hyoediv : (yoe + era * 400) / 400 = era := by omega
    rw [hyoemod, hyoediv]
    omega

/-- Milliseconds per UTC calendar day. -/
def msPerDay : Nat := 86400000

/-- The timestamp computed by `scheduleDailyFetch`:
`nextFetch = new Date(now); nextFetch.setUTCDate(nextFetch.getUTCDate() + 1);
nextFetch.setUTCHours(0, 0, 0, 0)` — the current UTC calendar date is
read off, the day-of-month is incremented, and the time-of-day is
cleared. -/
def nextUtcMidnight (t : Nat) : Nat :=
  civilToDays (civilFromDays (t / msPerDay)).1 (civilFromDays (t / msPerDay)).2.1
    ((civilFromDays (t / msPerDay)).2.2 + 1) * msPerDay

/-- The scheduler's delay `msUntilNext = nextFetch.getTime() - now.getTime()`. -/
def msUntilNextUtcMidnight (t : Nat) : Nat := nextUtcMidnight t - t

theorem nextUtcMidnight_eq (t : Nat) :
    nextUtcMidnight t = (t / msPerDay + 1) * msPerDay := by
  rw [nextUtcMidnight, civil_roundtrip_add (t / msPerDay) 1]

/-- Claim C7 statement: for every instant `now`, the scheduler's delay
is exactly the number of milliseconds from `now` to the next UTC
calendar-day boundary strictly after `now` (the least multiple of
86,400,000 ms exceeding `now`); in particular at 2026-01-01T13:00:00Z
the delay is 39,600,000 ms. -/
theorem msUntilNextUtcMidnight_spec (t : Nat) :
    (t + msUntilNextUtcMidnight t) % msPerDay = 0 ∧
    t < t + msUntilNextUtcMidnight t ∧
    (∀ c, c % msPerDay = 0 → t < c → t + msUntilNextUtcMidnight t ≤ c) ∧
    (t = 1767272400000 → msUntilNextUtcMidnight t = 39600000) := by
  have hnext : nextUtcMidnight t = (t / msPerDay + 1) * msPerDay :=
    nextUtcMidnight_eq t
  have hD : msPerDay = 86400000 := rfl
  have htlt : t < nextUtcMidnight t := by
    rw [hnext, hD]
    omega
  have hb : t + msUntilNextUtcMidnight t = nextUtcMidnight t := by
    rw [msUntilNextUtcMidnight]
    omega
  refine ⟨?_, ?_, ?_, ?_⟩
  · rw [hb, hnext]
    exact Nat.mul_mod_left _ _
  · omega
  · intro c hc0 hct
    rw [hb, hnext]
    rw [hD] at hc0 ⊢
    omega
  · intro ht
    rw [msUntilNextUtcMidnight, hnext, ht, hD]

/-- Witness for C7 at the concrete instant 2026-01-01T13:00:00Z: the
delay is 39,600,000 ms and lands on or before the boundary
2026-01-02T00:00:00Z. -/
theorem msUntilNextUtcMidnight_spec_witness :
    msUntilNextUtcMidnight 1767272400000 = 39600000 ∧
    1767272400000 + msUntilNextUtcMidnight 1767272400000 ≤ 1767312000000 :=
  ⟨(msUntilNextUtcMidnight_spec 1767272400000).2.2.2 rfl,
   (msUntilNextUtcMidnight_spec 1767272400000).2.2.1 1767312000000
     (by decide) (by decide)⟩

/-- Fixed two-digit decimal field of an ISO-8601 date string. -/
def pad2 (n : Nat) : String :=
  ⟨[Nat.digitChar (n / 10 % 10), Nat.digitChar (n % 10)]⟩

/-- Fixed four-digit year field of an ISO-8601 date string. -/
def pad4 (n : Nat) : String :=
  ⟨[Nat.digitChar (n / 1000 % 10), Nat.digitChar (n / 100 % 10),
    Nat.digitChar (n / 10 % 10), Nat.digitChar (n % 10)]⟩

/-- Conversion of a millisecond timestamp to its UTC calendar-day
string, modelling `new Date(openTime).toISOString().split('T')[0]`. -/
def msToDateStr (t : Nat) : String :=
  pad4 (civilFromDays (t / msPerDay)).1 ++ "-" ++
    pad2 (civilFromDays (t / msPerDay)).2.1 ++ "-" ++
    pad2 (civilFromDays (t / msPerDay)).2.2

/-- Fuelled decimal printer worker (digits of `n`, most significant
first). -/
def natToStrAux : Nat → Nat → List Char
  | 0, _ => []
  | fuel + 1, n =>
    if n < 10 then [Nat.digitChar n]
    else natToStrAux fuel (n / 10) ++ [Nat.digitChar (n % 10)]

/-- Decimal numeral of a natural number. -/
def natToStr (n : Nat) : String := ⟨natToStrAux (n + 1) n⟩

/-- The six fraction digits of a `toFixed(6)` rendering
(`n < 1000000`), zero padded. -/
def pad6 (n : Nat) : String :=
  ⟨[Nat.digitChar (n / 100000 % 10), Nat.digitChar (n / 10000 % 10),
    Nat.digitChar (n / 1000 % 10), Nat.digitChar (n / 100 % 10),
    Nat.digitChar (n / 10 % 10), Nat.digitChar (n % 10)]⟩

/-- The price value scaled to six fractional digits. The upstream serves
the price as a decimal numeral, modelled exactly as a mantissa `m` with
`k` fractional digits (value `m / 10^k`); `parseFloat` followed by
`toFixed(6)` zero-pads when `k ≤ 6` and rounds to the nearest 6-digit
value when `k > 6` (ties and double-rounding artifacts of the binary
float detour are idealized as round-half-up on the exact decimal). -/
def scaled6 (m k : Nat) : Nat :=
  if k ≤ 6 then m * 10 ^ (6 - k)
  else m / 10 ^ (k - 6) + (if 10 ^ (k - 6) ≤ 2 * (m % 10 ^ (k - 6)) then 1 else 0)

/-- Price rendering `parseFloat(candle[1]).toFixed(6)`. -/
def toFixed6 (m k : Nat) : String :=
  natToStr (scaled6 m k / 1000000) ++ "." ++ pad6 (scaled6 m k % 1000000)

/-- One kline candle as used by the program: the open time in ms
(`candle[0]`) and the opening price (`candle[1]`) as an exact decimal
(mantissa and fractional-digit count). The remaining fields are unused. -/
structure Candle where
  openTime : Nat
  openMantissa : Nat
  openScale : Nat
deriving DecidableEq, Repr

/-- Date extracted from a candle:
`new Date(parseInt(candle[0])).toISOString().split('T')[0]`. -/
def candleDate (c : Candle) : String := msToDateStr c.openTime

/-- Price extracted from a candle: `parseFloat(candle[1]).toFixed(6)`. -/
def candlePrice (c : Candle) : String := toFixed6 c.openMantissa c.openScale

/-- Candle loop of `fetchHistoricalData` for one window's response,
threading the `existingDates` exclusion set: a candle's point is pushed
only if its date is not excluded and not before `START_DATE`, and the
date is then added to the set. Returns the pushed points and the grown
set. -/
def processCandles : List Candle → List String → List PricePoint × List String
  | [], seen => ([], seen)
  | c :: rest, seen =>
    if candleDate c ∉ seen ∧ strLe START_DATE (candleDate c) = true then
      let r := processCandles rest (candleDate c :: seen)
      (⟨candleDate c, candlePrice c⟩ :: r.1, r.2)
    else processCandles rest seen

/-- Window loop of `fetchHistoricalData`: each window's fetch either
fails (`none`, caught and logged, the loop advances regardless) or
returns candles processed against the shared exclusion set; the new
points of all windows are accumulated in order. -/
def runWindows : List (Option (List Candle)) → List String → List PricePoint
  | [], _ => []
  | w :: rest, seen =>
    match w with
    | none => runWindows rest seen
    | some cs =>
      let r := processCandles cs seen
      r.1 ++ runWindows rest r.2

theorem processCandles_spec :
    ∀ (cs : List Candle) (seen : List String),
      ((processCandles cs seen).1.Pairwise fun a b => a.date ≠ b.date) ∧
      (∀ p ∈ (processCandles cs seen).1,
        p.date ∉ seen ∧ strLe START_DATE p.date = true ∧
          p.date ∈ (processCandles cs seen).2) ∧
      (∀ d ∈ seen, d ∈ (processCandles cs seen).2) := by
  intro cs
  induction cs with
  | nil =>
    intro seen
    refine ⟨List.Pairwise.nil, ?_, ?_⟩
    · intro p hp
      simp [processCandles] at hp
    · intro d hd
      exact hd
  | cons c rest ih =>
    intro seen
    rw [processCandles]
    by_cases hc : candleDate c ∉ seen ∧ strLe START_DATE (candleDate c) = true
    · rw [if_pos hc]
      simp only
      rcases ih (candleDate c :: seen) with ⟨ihp, ihm, ihs⟩
      refine ⟨?_, ?_, ?_⟩
      · refine List.Pairwise.cons ?_ ihp
        intro q hq hqc
        have := (ihm q hq).1
        rw [← hqc] at this
        exact this (List.mem_cons_self _ _)
      · intro p hp
        rcases List.mem_cons.mp hp with h' | h'
        · rw [h']
          exact ⟨hc.1, hc.2, ihs _ (List.mem_cons_self _ _)⟩
        · rcases ihm p h' with ⟨h1, h2, h3⟩
          exact ⟨fun hmem => h1 (List.mem_cons_of_mem _ hmem), h2, h3⟩
      · intro d hd
        exact ihs d (List.mem_cons_of_mem _ hd)
    · rw [if_neg hc]
      exact ih seen

theorem runWindows_spec :
    ∀ (ws : List (Option (List Candle))) (seen : List String),
      ((runWindows ws seen).Pairwise fun a b => a.date ≠ b.date) ∧
      ∀ p ∈ runWindows ws seen,
        p.date ∉ seen ∧ strLe START_DATE p.date = true := by
  intro ws
  induction ws with
  | nil =>
    intro seen
    refine ⟨List.Pairwise.nil, ?_⟩
    intro p hp
    simp [runWindows] at hp
  | cons w rest ih =>
    intro seen
    cases w with
    | none =>
      rw [runWindows]
      exact ih seen
    | some cs =>
      rw [runWindows]
      rcases processCandles_spec cs seen with ⟨hcp, hcm, hcs⟩
      rcases ih (processCandles cs seen).2 with ⟨ihp, ihm⟩
      constructor
      · rw [List.pairwise_append]
        refine ⟨hcp, ihp, ?_⟩
        intro a ha b hb hab
        have hbm := (ihm b hb).1
        rw [← hab] at hbm
        exact hbm (hcm a ha).2.2
      · intro p hp
        rcases List.mem_append.mp hp with h' | h'
        · exact ⟨(hcm p h').1, (hcm p h').2.1⟩
        · refine ⟨?_, (ihm p h').2⟩
          intro hmem
          exact (ihm p h').1 (hcs _ hmem)

/-- Claim C5 statement: across a whole fetch run (any sequence of
per-window responses, failed windows included) and any initial
exclusion set, the batch fetcher never emits a point dated strictly
before the configured earliest-supported date, never emits a point
whose date is in the exclusion set, and never emits two points with the
same date. -/
theorem fetcher_emission_spec (ws : List (Option (List Candle)))
    (seen : List String) :
    (∀ d, strLt d START_DATE = true → ∀ p ∈ runWindows ws seen, p.date ≠ d) ∧
    (∀ p ∈ runWindows ws seen, p.date ∉ seen) ∧
    ((runWindows ws seen).Pairwise fun a b => a.date ≠ b.date) := by
  rcases runWindows_spec ws seen with ⟨hp, hm⟩
  refine ⟨?_, fun p hp' => (hm p hp').1, hp⟩
  intro d hd p hp' hc
  have hle := (hm p hp').2
  rw [hc] at hle
  have habs := strLe_lt_trans hle hd
  rw [strLt, charListLt_irrefl] at habs
  exact Bool.false_eq_true.mp habs

/-- Witness for C5 at a concrete input: a run over one window with a
candle for 2026-01-02 and exclusion set `{2026-01-01}` emits a point
whose date is neither the excluded one nor an out-of-range date like
2025-12-31. -/
theorem fetcher_emission_spec_witness :
    (⟨"2026-01-02", "0.200000"⟩ : PricePoint).date ≠ "2025-12-31" ∧
    (⟨"2026-01-02", "0.200000"⟩ : PricePoint).date ∉ ["2026-01-01"] :=
  ⟨(fetcher_emission_spec [some [⟨1767312000000, 200000, 6⟩]] ["2026-01-01"]).1
      "2025-12-31" (by decide) ⟨"2026-01-02", "0.200000"⟩ (by decide),
   (fetcher_emission_spec [some [⟨1767312000000, 200000, 6⟩]] ["2026-01-01"]).2.1
      ⟨"2026-01-02", "0.200000"⟩ (by decide)⟩

/-- Claim C8 statement: a candle is mapped to the point whose date is
the open timestamp truncated to its UTC calendar date (the date depends
only on the UTC day of the timestamp) and whose price carries exactly
six fractional decimal digits; in particular the candle
`[1767225600000, "0.123456", ...]` yields
`{date: "2026-01-01", price: "0.123456"}`. -/
theorem candle_mapping_spec :
    (∀ c : Candle, candleDate c = msToDateStr (c.openTime / msPerDay * msPerDay)) ∧
    (∀ c : Candle, ∃ fr : String, fr.length = 6 ∧
      candlePrice c = natToStr (scaled6 c.openMantissa c.openScale / 1000000) ++
        "." ++ fr) ∧
    candleDate ⟨1767225600000, 123456, 6⟩ = "2026-01-01" ∧
    candlePrice ⟨1767225600000, 123456, 6⟩ = "0.123456" ∧
    processCandles [⟨1767225600000, 123456, 6⟩] [] =
      ([⟨"2026-01-01", "0.123456"⟩], ["2026-01-01"]) := by
  refine ⟨?_, ?_, by decide, by decide, by decide⟩
  · intro c
    rw [candleDate, msToDateStr, msToDateStr]
    have hD : msPerDay = 86400000 := rfl
    have htrunc : c.openTime / msPerDay * msPerDay / msPerDay = c.openTime / msPerDay := by
      rw [hD]
      omega
    rw [htrunc]
  · intro c
    exact ⟨pad6 (scaled6 c.openMantissa c.openScale % 1000000), rfl, rfl⟩

/-- The source's `loadStoredData()`: read the blob under the storage
key (`none` when absent), return `[]` on a falsy value (absent or empty
string), otherwise parse it; the surrounding `try`/`catch` turns any
parse failure into `[]`. `JSON.parse` is the external deserialization
capability, passed as the possibly failing function `parse`. -/
def loadStoredData (blob : Option String)
    (parse : String → Except String (List PricePoint)) : List PricePoint :=
  match blob with
  | none => []
  | some s =>
    if s == "" then []
    else
      match parse s with
      | Except.ok d => d
      | Except.error _ => []

/-- Claim C6 statement: `loadStoredData` always returns a series and
never raises (it is a total function into series): on an absent stored
value it returns the empty series, on any deserialization error it
returns the empty series, and in every case the result is either empty
or the successfully parsed stored series. -/
theorem loadStoredData_spec (blob : Option String)
    (parse : String → Except String (List PricePoint)) :
    (blob = none → loadStoredData blob parse = []) ∧
    (∀ s e, blob = some s → parse s = Except.error e →
      loadStoredData blob parse = []) ∧
    (loadStoredData blob parse = [] ∨
      ∃ s d, blob = some s ∧ parse s = Except.ok d ∧
        loadStoredData blob parse = d) := by
  refine ⟨?_, ?_, ?_⟩
  · intro h
    rw [h, loadStoredData]
  · intro s e hb hp
    rw [hb, loadStoredData]
    by_cases hs : s == ""
    · rw [if_pos hs]
    · rw [if_neg hs, hp]
  · cases blob with
    | none => left; rfl
    | some s =>
      rw [loadStoredData]
      by_cases hs : s == ""
      · rw [if_pos hs]
        left
        rfl
      · rw [if_neg hs]
        cases hp : parse s with
        | ok d => right; exact ⟨s, d, rfl, hp, rfl⟩
        | error e => left; rfl

/-- Witness for C6 at concrete inputs: an absent blob and a blob whose
parse fails both load as the empty series. -/
theorem loadStoredData_spec_witness :
    loadStoredData none (fun _ => Except.error "corrupt") = [] ∧
    loadStoredData (some "x") (fun _ => Except.error "corrupt") = [] :=
  ⟨(loadStoredData_spec none (fun _ => Except.error "corrupt")).1 rfl,
   (loadStoredData_spec (some "x") (fun _ => Except.error "corrupt")).2.1
     "x" "corrupt" rfl rfl⟩

/-- Body of the `try` block of `fetchAndStoreData` after the fetch: the
merge of existing and incoming data followed by the
`localStorage.setItem` persistence. An unexpected failure of either
step is injected through the two flags (`JSON.stringify`/`setItem` can
throw, e.g. on quota exhaustion); a successful run returns the merged
series, which is also the newly persisted store content. -/
def syncAttempt (existing incoming : List PricePoint)
    (mergeFails persistFails : Bool) : Except String (List PricePoint) :=
  if mergeFails then Except.error "merge failed"
  else
    if persistFails then Except.error "persist failed"
    else Except.ok (merge existing incoming)

/-- The source's `fetchAndStoreData` around that body: the whole
computation sits in one `try`/`catch` whose handler only logs, shows an
error message and re-displays the existing data — nothing is rethrown.
The result is what the caller observes: the displayed series and the
store slot content after the call (the previous content `store` when
nothing was written). -/
def fetchAndStoreData (existing incoming : List PricePoint)
    (store : Option (List PricePoint)) (mergeFails persistFails : Bool) :
    Except String (List PricePoint × Option (List PricePoint)) :=
  match syncAttempt existing incoming mergeFails persistFails with
  | Except.ok d => Except.ok (d, some d)
  | Except.error _ => Except.ok (existing, store)

/-- Counterexample for C3 as stated: with a failing persistence step the
sync body raises, yet `fetchAndStoreData` completes normally for its
caller (no error is propagated out of that layer); the handler leaves
the previously persisted series untouched and falls back to the
existing data. -/
theorem fetchAndStoreData_error_counterexample :
    syncAttempt [⟨"2026-01-01", "0.123456"⟩] [] false true =
      Except.error "persist failed" ∧
    fetchAndStoreData [⟨"2026-01-01", "0.123456"⟩] []
      (some [⟨"2026-01-01", "0.123456"⟩]) false true =
      Except.ok ([⟨"2026-01-01", "0.123456"⟩],
        some [⟨"2026-01-01", "0.123456"⟩]) := by
  constructor
  · rfl
  · rfl

/-- Amended claim C3: when the merge or persistence step raises, the
orchestrator catches the error instead of propagating it — the call
completes normally, the previously persisted series is left untouched,
and the previously existing data is what is displayed. -/
theorem fetchAndStoreData_catches (existing incoming : List PricePoint)
    (store : Option (List PricePoint)) (mergeFails persistFails : Bool)
    (e : String)
    (h : syncAttempt existing incoming mergeFails persistFails =
      Except.error e) :
    fetchAndStoreData existing incoming store mergeFails persistFails =
      Except.ok (existing, store) := by
  rw [fetchAndStoreData, h]

/-- Witness for the amended C3 at a concrete input: a failing persist
leaves the store untouched and the call returns normally. -/
theorem fetchAndStoreData_catches_witness :
    fetchAndStoreData [⟨"2026-01-02", "0.200000"⟩] []
      (some [⟨"2026-01-02", "0.200000"⟩]) false true =
      Except.ok ([⟨"2026-01-02", "0.200000"⟩],
        some [⟨"2026-01-02", "0.200000"⟩]) :=
  fetchAndStoreData_catches [⟨"2026-01-02", "0.200000"⟩] []
    (some [⟨"2026-01-02", "0.200000"⟩]) false true "persist failed" rfl
